import Mathlib

/-!
Verification of the hydrogen-orbital sampling engine.

The definitions below are a shallow embedding of the JavaScript source of
the repository: the Halton low-discrepancy generator (halton.js), the
special functions and density of the HydrogenOrbital class (orbital math
in visualizer.js), and the rejection-sampling particle generator.
JavaScript floating-point numbers are modelled as exact reals; integer
quantum numbers as Int; the unbounded JS call stack of the associated
Legendre recursion is modelled by an explicit fuel argument returning
Option (none models a stack overflow / non-termination).
-/

/-- State of the while loop of HaltonGenerator.halton: remaining index i,
current digit weight f, accumulated result.  The source loop runs while
i > 0; it only terminates for base at least 2 (for base 0 or 1 the JS
loop would never make progress), which the guard records. -/
def haltonLoop (base : ℕ) (i : ℕ) (f result : ℚ) : ℚ :=
  if h : 0 < i ∧ 2 ≤ base then
    haltonLoop base (i / base) (f / base) (result + f * ((i % base : ℕ) : ℚ))
  else result
termination_by i
decreasing_by exact Nat.div_lt_self h.1 h.2

/-- HaltonGenerator.halton(index, base): digit-reversal (van der Corput)
value, resultInit = 0, fInit = 1/base. -/
def halton (index base : ℕ) : ℚ :=
  haltonLoop base index (1 / (base : ℚ)) 0

/-- Spherical sample of HaltonGenerator.sphericalPoint. -/
structure SphPoint where
  r : ℝ
  theta : ℝ
  phi : ℝ

/-- Cartesian point, the output type of sphericalToCartesian. -/
structure Point3 where
  x : ℝ
  y : ℝ
  z : ℝ

/-- HaltonGenerator.sphericalPoint(index): r from base 2, theta from
base 3 scaled by pi, phi from base 5 scaled by 2*pi. -/
noncomputable def sphericalPoint (index : ℕ) : SphPoint :=
  ⟨((halton index 2 : ℚ) : ℝ),
   ((halton index 3 : ℚ) : ℝ) * Real.pi,
   ((halton index 5 : ℚ) : ℝ) * 2 * Real.pi⟩

/-- HaltonGenerator.sphericalToCartesian(r, theta, phi). -/
noncomputable def sphericalToCartesian (r theta phi : ℝ) : Point3 :=
  ⟨r * Real.sin theta * Real.cos phi,
   r * Real.sin theta * Real.sin phi,
   r * Real.cos theta⟩

/-- The factorial helper of orbital math: 0 for negative arguments
(sentinel), otherwise the exact product. -/
def factorial (n : ℤ) : ℝ :=
  if n < 0 then 0 else (Nat.factorial n.toNat : ℝ)

/-- Rolling pair (L0, L1) of the associatedLaguerre recurrence loop after
k iterations; iteration number i of the source loop corresponds to k = i. -/
noncomputable def lagRec (alpha x : ℝ) : ℕ → ℝ × ℝ
  | 0 => (1, 1 + alpha - x)
  | k + 1 =>
    ((lagRec alpha x k).2,
     ((2 * ((k : ℝ) + 1) + 1 + alpha - x) * (lagRec alpha x k).2 -
        (((k : ℝ) + 1) + alpha) * (lagRec alpha x k).1) / (((k : ℝ) + 1) + 1))

/-- HydrogenOrbital.associatedLaguerre(n, alpha, x): base cases n = 0 and
n = 1, then the three-term recurrence loop for i = 1 .. n-1.  For negative
n the source loop body never runs and L1 = 1 + alpha - x is returned. -/
noncomputable def associatedLaguerre (n : ℤ) (alpha x : ℝ) : ℝ :=
  if n = 0 then 1
  else if n = 1 then 1 + alpha - x
  else (lagRec alpha x (n - 1).toNat).2

/-- Rolling pair (P0, P1) of the m = 0 branch loop of associatedLegendre
after k iterations. -/
noncomputable def legRec (x : ℝ) : ℕ → ℝ × ℝ
  | 0 => (1, x)
  | k + 1 =>
    ((legRec x k).2,
     ((2 * ((k : ℝ) + 1) + 1) * x * (legRec x k).2 -
        ((k : ℝ) + 1) * (legRec x k).1) / (((k : ℝ) + 1) + 1))

/-- HydrogenOrbital.associatedLegendre(l, m, x), with an explicit fuel
bounding the recursion depth: the source recursion on l has no base case
for m > l (and no check that |m| <= l), so on such inputs it recurses
with ever smaller l and overflows the stack; fuel exhaustion (none)
models that. -/
noncomputable def associatedLegendreF (x : ℝ) : ℕ → ℤ → ℤ → Option ℝ
  | 0, _, _ => none
  | fuel + 1, l, m =>
    if l = 0 ∧ m = 0 then some 1
    else if l = 1 ∧ m = 0 then some x
    else if l = 1 ∧ m = 1 then some (-Real.sqrt (1 - x * x))
    else if m = 0 then some (legRec x (l - 1).toNat).2
    else if m = l then
      some ((((-1 : ℝ) ^ m) * factorial (2 * m) / ((2 : ℝ) ^ m * factorial m)) *
        Real.rpow (1 - x * x) ((m : ℝ) / 2))
    else if m = l - 1 then
      (associatedLegendreF x fuel (l - 1) (l - 1)).map
        (fun p => x * (2 * (l : ℝ) - 1) * p)
    else
      (associatedLegendreF x fuel (l - 1) m).bind (fun a =>
        (associatedLegendreF x fuel (l - 2) m).bind (fun b =>
          some (((2 * (l : ℝ) - 1) * x * a - ((l : ℝ) + (m : ℝ) - 1) * b) /
            ((l : ℝ) - (m : ℝ)))))

/-- Total wrapper for associatedLegendre: the source recursion terminates
within depth l + 1 whenever 0 <= m <= l, so that much fuel is supplied;
inputs on which the source diverges (see the fuel-exhaustion theorems
below) are mapped to the junk value 0 here. -/
noncomputable def associatedLegendre (l m : ℤ) (x : ℝ) : ℝ :=
  (associatedLegendreF x (l.toNat + 1) l m).getD 0

/-- HydrogenOrbital.sphericalHarmonic(l, m, theta, phi): real-valued
simplification used by the source (norm * P_l^|m|(cos theta) * cos(m phi)
* phase). -/
noncomputable def sphericalHarmonic (l m : ℤ) (theta phi : ℝ) : ℝ :=
  Real.sqrt (((2 * (l : ℝ) + 1) * factorial (l - |m|)) /
      (4 * Real.pi * factorial (l + |m|))) *
    associatedLegendre l |m| (Real.cos theta) *
    Real.cos ((m : ℝ) * phi) *
    (if m < 0 then (-1 : ℝ) ^ |m| else 1)

/-- HydrogenOrbital.radialWavefunction(n, l, r): rho = 2r/n, normalization
sqrt((2/n)^3 (n-l-1)! / (2n (n+l)!)), Laguerre factor, exponential decay. -/
noncomputable def radialWavefunction (n l : ℤ) (r : ℝ) : ℝ :=
  Real.sqrt ((2 / (n : ℝ)) ^ 3 * factorial (n - l - 1) /
      (2 * (n : ℝ) * factorial (n + l))) *
    Real.exp (-(2 * r / (n : ℝ)) / 2) *
    (2 * r / (n : ℝ)) ^ l *
    associatedLaguerre (n - l - 1) (2 * (l : ℝ) + 1) (2 * r / (n : ℝ))

/-- HydrogenOrbital.probabilityDensity(n, l, m, r, theta, phi): the source
returns R * R * Y * Y. -/
noncomputable def probabilityDensity (n l m : ℤ) (r theta phi : ℝ) : ℝ :=
  radialWavefunction n l r * radialWavefunction n l r *
    sphericalHarmonic l m theta phi * sphericalHarmonic l m theta phi

/-- The maximum radius chosen by generateOrbitalParticles: n * n * 2. -/
def maxRadiusOf (n : ℤ) : ℝ := (n : ℝ) * (n : ℝ) * 2

/-- Candidate radius fed to the joint density at sequence index idx:
the raw Halton radial sample scaled by the maximum radius
(spherical.r *= maxRadius in the source). -/
noncomputable def candidateRadius (n : ℤ) (index : ℕ) : ℝ :=
  (sphericalPoint index).r * maxRadiusOf n

/-- Mutable state of the generateOrbitalParticles while loop. -/
structure GenState where
  particles : List Point3
  rejected : List ℕ
  accepted : ℕ
  attempts : ℕ

open Classical in
/-- The while loop of HydrogenOrbital.generateOrbitalParticles: runs while
accepted < particleCount and attempts < particleCount * 10; idx is
attempts + 1; indices in the rejected set are skipped; otherwise the
candidate is accepted when the random draw for this attempt is below
density / 0.1, else idx is added to the rejected set; attempts increments
on every path.  rand models the stream of Math.random() draws, indexed by
the attempt on which the draw happens. -/
noncomputable def genLoop (n l m : ℤ) (count : ℕ) (rand : ℕ → ℝ)
    (s : GenState) : GenState :=
  if h : s.accepted < count ∧ s.attempts < count * 10 then
    if (s.attempts + 1) ∈ s.rejected then
      genLoop n l m count rand
        ⟨s.particles, s.rejected, s.accepted, s.attempts + 1⟩
    else if rand s.attempts <
        probabilityDensity n l m (candidateRadius n (s.attempts + 1))
          (sphericalPoint (s.attempts + 1)).theta
          (sphericalPoint (s.attempts + 1)).phi / 0.1 then
      genLoop n l m count rand
        ⟨s.particles ++ [sphericalToCartesian (candidateRadius n (s.attempts + 1))
            (sphericalPoint (s.attempts + 1)).theta
            (sphericalPoint (s.attempts + 1)).phi],
         s.rejected, s.accepted + 1, s.attempts + 1⟩
    else
      genLoop n l m count rand
        ⟨s.particles, (s.attempts + 1) :: s.rejected, s.accepted, s.attempts + 1⟩
  else s
termination_by count * 10 - s.attempts
decreasing_by all_goals exact Nat.sub_lt_sub_left h.2 (Nat.lt_succ_self _)

/-- HydrogenOrbital.generateOrbitalParticles(n, l, m, particleCount):
runs the loop from the empty initial state and returns the accepted
particle list. -/
noncomputable def generateOrbitalParticles (n l m : ℤ) (count : ℕ)
    (rand : ℕ → ℝ) : List Point3 :=
  (genLoop n l m count rand ⟨[], [], 0, 0⟩).particles

/-- Loop state of the variant of generateOrbitalParticles with the
rejected set and its membership check removed. -/
structure SimpleState where
  particles : List Point3
  accepted : ℕ
  attempts : ℕ

open Classical in
/-- The generateOrbitalParticles loop with the rejected set and its
membership check removed; otherwise identical to genLoop. -/
noncomputable def genLoopSimple (n l m : ℤ) (count : ℕ) (rand : ℕ → ℝ)
    (s : SimpleState) : SimpleState :=
  if h : s.accepted < count ∧ s.attempts < count * 10 then
    if rand s.attempts <
        probabilityDensity n l m (candidateRadius n (s.attempts + 1))
          (sphericalPoint (s.attempts + 1)).theta
          (sphericalPoint (s.attempts + 1)).phi / 0.1 then
      genLoopSimple n l m count rand
        ⟨s.particles ++ [sphericalToCartesian (candidateRadius n (s.attempts + 1))
            (sphericalPoint (s.attempts + 1)).theta
            (sphericalPoint (s.attempts + 1)).phi],
         s.accepted + 1, s.attempts + 1⟩
    else
      genLoopSimple n l m count rand ⟨s.particles, s.accepted, s.attempts + 1⟩
  else s
termination_by count * 10 - s.attempts
decreasing_by all_goals exact Nat.sub_lt_sub_left h.2 (Nat.lt_succ_self _)

/-- generateOrbitalParticles with the rejected set removed. -/
noncomputable def generateOrbitalParticlesSimple (n l m : ℤ) (count : ℕ)
    (rand : ℕ → ℝ) : List Point3 :=
  (genLoopSimple n l m count rand ⟨[], 0, 0⟩).particles

/-- Falling-factorial product y (y-1) ... (y-m+1). -/
def ff (y : ℝ) (m : ℕ) : ℝ := ∏ i in Finset.range m, (y - (i : ℝ))

/-- Generalized binomial coefficient C(y, m) = y (y-1) ... (y-m+1) / m!. -/
noncomputable def genBinom (y : ℝ) (m : ℕ) : ℝ := ff y m / (Nat.factorial m : ℝ)

/-- Reference definition from the spec: the direct binomial-sum form of
the associated Laguerre polynomial,
L_n^alpha(x) = sum_k (-1)^k C(n+alpha, n-k) x^k / k!. -/
noncomputable def laguerreBinomialSum (n : ℕ) (alpha x : ℝ) : ℝ :=
  ∑ k in Finset.range (n + 1),
    (-1 : ℝ) ^ k * genBinom (alpha + (n : ℝ)) (n - k) * x ^ k /
      (Nat.factorial k : ℝ)

/-- The clean two-step form of the three-term Laguerre recurrence computed
by the source loop. -/
noncomputable def lagStd (alpha x : ℝ) : ℕ → ℝ
  | 0 => 1
  | 1 => 1 + alpha - x
  | k + 2 =>
    ((2 * ((k : ℝ) + 1) + 1 + alpha - x) * lagStd alpha x (k + 1) -
        (((k : ℝ) + 1) + alpha) * lagStd alpha x k) / (((k : ℝ) + 1) + 1)

/-- Coefficient of x^k in the binomial sum for L_(k+m)^alpha, written with
the two indices k and m = n - k kept independent. -/
noncomputable def lagCoeff (alpha : ℝ) (k m : ℕ) : ℝ :=
  (-1 : ℝ) ^ k * ff (alpha + (k : ℝ) + (m : ℝ)) m /
    ((Nat.factorial m : ℝ) * (Nat.factorial k : ℝ))

/-- The binomial sum written through lagCoeff. -/
noncomputable def lagSum (alpha x : ℝ) (n : ℕ) : ℝ :=
  ∑ k in Finset.range (n + 1), lagCoeff alpha k (n - k) * x ^ k

/-- Summand of lagSum zero-extended beyond its index range. -/
noncomputable def lagTerm (alpha x : ℝ) (n k : ℕ) : ℝ :=
  if k ≤ n then lagCoeff alpha k (n - k) * x ^ k else 0

theorem haltonLoop_nonneg (base : ℕ) :
    ∀ (i : ℕ) (f result : ℚ), 0 ≤ f → 0 ≤ result →
      0 ≤ haltonLoop base i f result := by
  intro i
  induction i using Nat.strong_induction_on with
  | _ i ih =>
    intro f result hf hr
    rw [haltonLoop]
    by_cases h : 0 < i ∧ 2 ≤ base
    · rw [dif_pos h]
      have hb : (0:ℚ) < base := by exact_mod_cast Nat.lt_of_lt_of_le (by norm_num) h.2
      exact ih (i / base) (Nat.div_lt_self h.1 h.2) _ _
        (div_nonneg hf hb.le)
        (add_nonneg hr (mul_nonneg hf (by positivity)))
    · rw [dif_neg h]; exact hr

theorem haltonLoop_lt (base : ℕ) (hb2 : 2 ≤ base) :
    ∀ (i : ℕ) (f result : ℚ), 0 < f →
      haltonLoop base i f result < result + f * base := by
  intro i
  induction i using Nat.strong_induction_on with
  | _ i ih =>
    intro f result hf
    have hb : (0:ℚ) < base := by exact_mod_cast Nat.lt_of_lt_of_le (by norm_num) hb2
    rw [haltonLoop]
    by_cases h : 0 < i ∧ 2 ≤ base
    · rw [dif_pos h]
      have h1 := ih (i / base) (Nat.div_lt_self h.1 h.2) (f / base)
        (result + f * ((i % base : ℕ) : ℚ)) (div_pos hf hb)
      have hmod : ((i % base : ℕ) : ℚ) ≤ (base : ℚ) - 1 := by
        have hm : (i % base) + 1 ≤ base := Nat.mod_lt _ (by omega)
        have : ((i % base : ℕ) : ℚ) + 1 ≤ (base : ℚ) := by exact_mod_cast hm
        linarith
      have hfb : f / base * base = f := div_mul_cancel₀ f (ne_of_gt hb)
      have h2 : f * ((i % base : ℕ) : ℚ) ≤ f * ((base : ℚ) - 1) :=
        mul_le_mul_of_nonneg_left hmod hf.le
      calc haltonLoop base (i / base) (f / base) (result + f * ((i % base : ℕ) : ℚ))
          < result + f * ((i % base : ℕ) : ℚ) + f / base * base := h1
        _ = result + f * ((i % base : ℕ) : ℚ) + f := by rw [hfb]
        _ ≤ result + f * ((base : ℚ) - 1) + f := by linarith
        _ = result + f * base := by ring
    · rw [dif_neg h]
      nlinarith [mul_pos hf hb]


theorem sphericalPoint_r (index : ℕ) :
    (sphericalPoint index).r = ((halton index 2 : ℚ) : ℝ) := rfl

theorem sphericalPoint_theta (index : ℕ) :
    (sphericalPoint index).theta = ((halton index 3 : ℚ) : ℝ) * Real.pi := rfl

theorem sphericalPoint_phi (index : ℕ) :
    (sphericalPoint index).phi = ((halton index 5 : ℚ) : ℝ) * 2 * Real.pi := rfl

/-- Claim C8: halton(index, base) lies in [0, 1) for every index and every
base at least 2. -/
theorem halton_mem_Ico (index base : ℕ) (hb : 2 ≤ base) :
    0 ≤ halton index base ∧ halton index base < 1 := by
  have hbpos : (0:ℚ) < base := by
    exact_mod_cast Nat.lt_of_lt_of_le (by norm_num) hb
  constructor
  · exact haltonLoop_nonneg base index _ _ (by positivity) le_rfl
  · have h := haltonLoop_lt base hb index (1 / (base : ℚ)) 0
      (one_div_pos.mpr hbpos)
    have h2 : (1 / (base : ℚ)) * base = 1 := by field_simp
    rw [zero_add, h2] at h
    exact h

/-- Witness for halton_mem_Ico at index 5, base 2. -/
theorem halton_mem_Ico_witness :
    2 ≤ 2 ∧ (0 ≤ halton 5 2 ∧ halton 5 2 < 1) :=
  ⟨by norm_num, halton_mem_Ico 5 2 (by norm_num)⟩

theorem legendreF_m_two_diverges (x : ℝ) :
    ∀ (fuel : ℕ) (l : ℤ), l ≤ 1 → associatedLegendreF x fuel l 2 = none := by
  intro fuel
  induction fuel with
  | zero => intro l hl; rfl
  | succ fuel ih =>
    intro l hl
    simp only [associatedLegendreF]
    rw [if_neg (by omega), if_neg (by omega), if_neg (by omega),
      if_neg (by omega), if_neg (by omega), if_neg (by omega),
      ih (l - 1) (by omega)]
    rfl

/-- Claim C5 (code bug): at l = 1, m = 2 (an instance of |m| > l) the
source associatedLegendre recursion calls itself with ever smaller l and
never reaches a base case: no call-stack depth (fuel) suffices, so the
function blows the stack instead of returning the sentinel 0 required by
the spec and by the repository's own unit test. -/
theorem associatedLegendre_m_gt_l_diverges :
    ∀ (fuel : ℕ) (x : ℝ), associatedLegendreF x fuel 1 2 = none :=
  fun fuel x => legendreF_m_two_diverges x fuel 1 (by norm_num)

/-- Claim C6 (counterexample): associatedLaguerre(-1, 2, 5) evaluates to
1 + 2 - 5 = -2, not the sentinel 0 the claim requires for negative n. -/
theorem associatedLaguerre_neg_ne_zero : associatedLaguerre (-1) 2 5 ≠ 0 := by
  rw [associatedLaguerre, if_neg (by norm_num), if_neg (by norm_num),
    show ((-1 : ℤ) - 1).toNat = 0 by decide]
  norm_num [lagRec]

/-- Claim C6 (amended): associatedLaguerre returns 1 when n = 0; for
negative n the recurrence loop body never runs and the n = 1 seed value
1 + alpha - x is returned, not 0. -/
theorem associatedLaguerre_base_cases (alpha x : ℝ) :
    associatedLaguerre 0 alpha x = 1 ∧
      ∀ n : ℤ, n < 0 → associatedLaguerre n alpha x = 1 + alpha - x := by
  constructor
  · simp [associatedLaguerre]
  · intro n hn
    rw [associatedLaguerre, if_neg (by omega), if_neg (by omega),
      Int.toNat_of_nonpos (by omega)]
    rfl

/-- Witness for associatedLaguerre_base_cases at alpha = 2, x = 3 and
n = -1. -/
theorem associatedLaguerre_base_cases_witness :
    associatedLaguerre 0 2 3 = 1 ∧
      ((-1 : ℤ) < 0 ∧ associatedLaguerre (-1) 2 3 = 1 + 2 - 3) :=
  ⟨(associatedLaguerre_base_cases 2 3).1, by norm_num,
    (associatedLaguerre_base_cases 2 3).2 (-1) (by norm_num)⟩

/-- Claim C3: on every valid quantum state and every position in the
stated ranges the probability density is a non-negative real. -/
theorem probabilityDensity_nonneg (n l m : ℤ) (r theta phi : ℝ)
    (hn : 1 ≤ n) (hl0 : 0 ≤ l) (hl : l ≤ n - 1) (hm : |m| ≤ l)
    (hr : 0 ≤ r) (ht : theta ∈ Set.Icc 0 Real.pi)
    (hp : phi ∈ Set.Ico 0 (2 * Real.pi)) :
    0 ≤ probabilityDensity n l m r theta phi := by
  rw [probabilityDensity]
  nlinarith [sq_nonneg (radialWavefunction n l r * sphericalHarmonic l m theta phi)]

/-- Witness for probabilityDensity_nonneg at the 1s state and the origin. -/
theorem probabilityDensity_nonneg_witness :
    (0 : ℝ) ∈ Set.Icc 0 Real.pi ∧ 0 ≤ probabilityDensity 1 0 0 0 0 0 :=
  ⟨⟨le_refl 0, Real.pi_nonneg⟩,
    probabilityDensity_nonneg 1 0 0 0 0 0 (by norm_num) (by norm_num)
      (by norm_num) (by norm_num) (by norm_num)
      ⟨le_refl 0, Real.pi_nonneg⟩ ⟨le_refl 0, Real.two_pi_pos⟩⟩

theorem sphericalHarmonic_zero_zero (theta phi : ℝ) :
    sphericalHarmonic 0 0 theta phi = Real.sqrt (1 / (4 * Real.pi)) := by
  rw [sphericalHarmonic, associatedLegendre]
  norm_num [associatedLegendreF, factorial]

/-- Claim C9: for l = m = 0 the density is independent of both angles
(s-orbital isotropy). -/
theorem probabilityDensity_isotropic (n : ℤ) (r theta theta' phi phi' : ℝ)
    (hn : 1 ≤ n) (hr : 0 ≤ r)
    (ht : theta ∈ Set.Icc 0 Real.pi) (ht' : theta' ∈ Set.Icc 0 Real.pi)
    (hp : phi ∈ Set.Ico 0 (2 * Real.pi))
    (hp' : phi' ∈ Set.Ico 0 (2 * Real.pi)) :
    probabilityDensity n 0 0 r theta phi =
      probabilityDensity n 0 0 r theta' phi' := by
  rw [probabilityDensity, probabilityDensity, sphericalHarmonic_zero_zero,
    sphericalHarmonic_zero_zero]

/-- Witness for probabilityDensity_isotropic comparing theta = 0 with
theta = pi at the 2s state. -/
theorem probabilityDensity_isotropic_witness :
    Real.pi ∈ Set.Icc 0 Real.pi ∧
      probabilityDensity 2 0 0 1 0 0 = probabilityDensity 2 0 0 1 Real.pi 0 :=
  ⟨⟨Real.pi_nonneg, le_refl _⟩,
    probabilityDensity_isotropic 2 1 0 Real.pi 0 0 (by norm_num) (by norm_num)
      ⟨le_refl 0, Real.pi_nonneg⟩ ⟨Real.pi_nonneg, le_refl _⟩
      ⟨le_refl 0, Real.two_pi_pos⟩ ⟨le_refl 0, Real.two_pi_pos⟩⟩

theorem radialWavefunction_1s_at_two :
    radialWavefunction 1 0 2 = 2 * Real.exp (-2) := by
  rw [radialWavefunction]
  norm_num [factorial, associatedLaguerre]
  rw [show (4 : ℝ) = 2 ^ 2 by norm_num,
    Real.sqrt_sq (by norm_num : (0:ℝ) ≤ 2)]

/-- Claim C1 (counterexample): at the valid 1s state and the point r = 2,
theta = phi = 0, probabilityDensity differs from (radial density) *
(angular density) * r^2 — the source omits the r^2 volume-element
factor. -/
theorem probabilityDensity_r_sq_cex :
    probabilityDensity 1 0 0 2 0 0 ≠
      (radialWavefunction 1 0 2) ^ 2 * (sphericalHarmonic 0 0 0 0) ^ 2 *
        (2 : ℝ) ^ 2 := by
  have hR := radialWavefunction_1s_at_two
  have hY := sphericalHarmonic_zero_zero 0 0
  have hss : Real.sqrt (1 / (4 * Real.pi)) * Real.sqrt (1 / (4 * Real.pi)) =
      1 / (4 * Real.pi) := Real.mul_self_sqrt (by positivity)
  have key : (2 * Real.exp (-2)) * (2 * Real.exp (-2)) *
      Real.sqrt (1 / (4 * Real.pi)) * Real.sqrt (1 / (4 * Real.pi)) =
      4 * Real.exp (-2) ^ 2 * (1 / (4 * Real.pi)) := by
    linear_combination (4 * Real.exp (-2) ^ 2) * hss
  have key2 : (2 * Real.exp (-2)) ^ 2 * Real.sqrt (1 / (4 * Real.pi)) ^ 2 *
      (2 : ℝ) ^ 2 = 16 * Real.exp (-2) ^ 2 * (1 / (4 * Real.pi)) := by
    linear_combination (16 * Real.exp (-2) ^ 2) * hss
  rw [probabilityDensity, hR, hY, key, key2]
  have hpos : 0 < Real.exp (-2) ^ 2 * (1 / (4 * Real.pi)) := by positivity
  intro h
  nlinarith [hpos, h]

/-- Claim C1 (amended): probabilityDensity(n, l, m, r, theta, phi) is the
product of the squared radial wavefunction and the squared spherical
harmonic, with no r^2 volume-element factor. -/
theorem probabilityDensity_eq_sq_mul_sq (n l m : ℤ) (r theta phi : ℝ)
    (hn : 1 ≤ n) (hl0 : 0 ≤ l) (hl : l ≤ n - 1) (hm : |m| ≤ l)
    (hr : 0 ≤ r) (ht : theta ∈ Set.Icc 0 Real.pi)
    (hp : phi ∈ Set.Ico 0 (2 * Real.pi)) :
    probabilityDensity n l m r theta phi =
      (radialWavefunction n l r) ^ 2 * (sphericalHarmonic l m theta phi) ^ 2 := by
  rw [probabilityDensity]; ring

/-- Witness for probabilityDensity_eq_sq_mul_sq at the 1s state, r = 2. -/
theorem probabilityDensity_eq_sq_mul_sq_witness :
    (0 : ℝ) ∈ Set.Icc 0 Real.pi ∧
      probabilityDensity 1 0 0 2 0 0 =
        (radialWavefunction 1 0 2) ^ 2 * (sphericalHarmonic 0 0 0 0) ^ 2 :=
  ⟨⟨le_refl 0, Real.pi_nonneg⟩,
    probabilityDensity_eq_sq_mul_sq 1 0 0 2 0 0 (by norm_num) (by norm_num)
      (by norm_num) (by norm_num) (by norm_num)
      ⟨le_refl 0, Real.pi_nonneg⟩ ⟨le_refl 0, Real.two_pi_pos⟩⟩

theorem halton_one_two : halton 1 2 = 1 / 2 := by
  rw [halton, haltonLoop, dif_pos (by norm_num : 0 < 1 ∧ 2 ≤ 2), haltonLoop]
  norm_num

/-- Claim C4 (counterexample): at n = 1 and sequence index 1 the candidate
radius is rMax * halton(1, 2) = 1, whereas the claimed cube-root transform
rMax * halton(1, 2)^(1/3) equals 2^(2/3) > 1. -/
theorem candidateRadius_cuberoot_cex :
    candidateRadius 1 1 ≠
      maxRadiusOf 1 * Real.rpow ((halton 1 2 : ℚ) : ℝ) ((1 : ℝ) / 3) := by
  have hh : ((halton 1 2 : ℚ) : ℝ) = 1 / 2 := by rw [halton_one_two]; norm_num
  rw [candidateRadius, sphericalPoint_r, maxRadiusOf, hh]
  have h1 : ((1 : ℝ) / 2) ^ (1 : ℝ) < ((1 : ℝ) / 2) ^ ((1 : ℝ) / 3) :=
    Real.rpow_lt_rpow_of_exponent_gt (by norm_num) (by norm_num) (by norm_num)
  rw [Real.rpow_one] at h1
  intro h
  rw [show Real.rpow ((1:ℝ)/2) ((1:ℝ)/3) = ((1:ℝ)/2) ^ ((1:ℝ)/3) from rfl] at h
  norm_num at h
  nlinarith [h1, h]

/-- Claim C4 (amended): the candidate radius at sequence index idx is the
raw Halton radial sample halton(idx, 2) scaled linearly by the maximum
radius n * n * 2 (no cube root is applied), and theta, phi are taken from
the Halton spherical sample unchanged. -/
theorem candidateRadius_linear (n : ℤ) (idx : ℕ) :
    candidateRadius n idx = maxRadiusOf n * ((halton idx 2 : ℚ) : ℝ) ∧
      (sphericalPoint idx).theta = Real.pi * ((halton idx 3 : ℚ) : ℝ) ∧
      (sphericalPoint idx).phi = 2 * Real.pi * ((halton idx 5 : ℚ) : ℝ) := by
  refine ⟨?_, ?_, ?_⟩
  · rw [candidateRadius, sphericalPoint_r]; ring
  · rw [sphericalPoint_theta]; ring
  · rw [sphericalPoint_phi]; ring

theorem genLoop_bounds (n l m : ℤ) (count : ℕ) (rand : ℕ → ℝ) :
    ∀ (fuel : ℕ) (s : GenState), count * 10 - s.attempts ≤ fuel →
      s.particles.length = s.accepted → s.accepted ≤ count →
      s.attempts ≤ count * 10 →
      (genLoop n l m count rand s).particles.length ≤ count ∧
        (genLoop n l m count rand s).attempts ≤ count * 10 := by
  intro fuel
  induction fuel with
  | zero =>
    intro s hf hlen hacc hatt
    rw [genLoop, dif_neg (by omega : ¬(s.accepted < count ∧ s.attempts < count * 10))]
    exact ⟨by omega, hatt⟩
  | succ fuel ih =>
    intro s hf hlen hacc hatt
    rw [genLoop]
    by_cases h : s.accepted < count ∧ s.attempts < count * 10
    · rw [dif_pos h]
      by_cases hmem : (s.attempts + 1) ∈ s.rejected
      · rw [if_pos hmem]
        exact ih ⟨s.particles, s.rejected, s.accepted, s.attempts + 1⟩
          (show count * 10 - (s.attempts + 1) ≤ fuel by omega) hlen hacc
          (show s.attempts + 1 ≤ count * 10 by omega)
      · rw [if_neg hmem]
        by_cases hdr : rand s.attempts <
            probabilityDensity n l m (candidateRadius n (s.attempts + 1))
              (sphericalPoint (s.attempts + 1)).theta
              (sphericalPoint (s.attempts + 1)).phi / 0.1
        · rw [if_pos hdr]
          refine ih _ (show count * 10 - (s.attempts + 1) ≤ fuel by omega)
            ?_ (show s.accepted + 1 ≤ count by omega)
            (show s.attempts + 1 ≤ count * 10 by omega)
          show (s.particles ++ [_]).length = s.accepted + 1
          simp [hlen]
        · rw [if_neg hdr]
          exact ih ⟨s.particles, (s.attempts + 1) :: s.rejected, s.accepted,
              s.attempts + 1⟩
            (show count * 10 - (s.attempts + 1) ≤ fuel by omega) hlen hacc
            (show s.attempts + 1 ≤ count * 10 by omega)
    · rw [dif_neg h]
      exact ⟨by omega, hatt⟩

/-- Claim C2: generateOrbitalParticles always terminates, its rejection
loop makes at most 10 * particleCount attempts, and the returned list has
length at most particleCount. -/
theorem generateOrbitalParticles_bounds (n l m : ℤ) (count : ℕ)
    (rand : ℕ → ℝ) :
    (generateOrbitalParticles n l m count rand).length ≤ count ∧
      (genLoop n l m count rand ⟨[], [], 0, 0⟩).attempts ≤ count * 10 := by
  have h := genLoop_bounds n l m count rand (count * 10) ⟨[], [], 0, 0⟩
    (by simp) rfl (Nat.zero_le _) (Nat.zero_le _)
  exact ⟨h.1, h.2⟩

theorem genLoop_agrees_simple (n l m : ℤ) (count : ℕ) (rand : ℕ → ℝ) :
    ∀ (fuel : ℕ) (s : GenState), count * 10 - s.attempts ≤ fuel →
      (∀ j ∈ s.rejected, j ≤ s.attempts) →
      (genLoop n l m count rand s).particles =
        (genLoopSimple n l m count rand
          ⟨s.particles, s.accepted, s.attempts⟩).particles := by
  intro fuel
  induction fuel with
  | zero =>
    intro s hf hrej
    have hng : ¬(s.accepted < count ∧ s.attempts < count * 10) := by omega
    rw [genLoop, genLoopSimple]
    dsimp only
    rw [dif_neg hng, dif_neg hng]
  | succ fuel ih =>
    intro s hf hrej
    rw [genLoop, genLoopSimple]
    dsimp only
    by_cases h : s.accepted < count ∧ s.attempts < count * 10
    · rw [dif_pos h, dif_pos h]
      have hmem : (s.attempts + 1) ∉ s.rejected := fun hm => by
        have := hrej _ hm; omega
      rw [if_neg hmem]
      by_cases hdr : rand s.attempts <
          probabilityDensity n l m (candidateRadius n (s.attempts + 1))
            (sphericalPoint (s.attempts + 1)).theta
            (sphericalPoint (s.attempts + 1)).phi / 0.1
      · rw [if_pos hdr, if_pos hdr]
        exact ih ⟨s.particles ++ [sphericalToCartesian
            (candidateRadius n (s.attempts + 1))
            (sphericalPoint (s.attempts + 1)).theta
            (sphericalPoint (s.attempts + 1)).phi],
            s.rejected, s.accepted + 1, s.attempts + 1⟩
          (show count * 10 - (s.attempts + 1) ≤ fuel by omega)
          (fun j hj => show j ≤ s.attempts + 1 by have := hrej j hj; omega)
      · rw [if_neg hdr, if_neg hdr]
        refine ih ⟨s.particles, (s.attempts + 1) :: s.rejected, s.accepted,
            s.attempts + 1⟩
          (show count * 10 - (s.attempts + 1) ≤ fuel by omega) ?_
        intro j hj
        have hj2 : j ∈ (s.attempts + 1) :: s.rejected := hj
        show j ≤ s.attempts + 1
        rcases List.mem_cons.mp hj2 with h1 | h2
        · omega
        · have := hrej j h2; omega
    · rw [dif_neg h, dif_neg h]

/-- Claim C10: the per-attempt index attempts + 1 is fresh on every
iteration, the rejected-set membership test therefore never fires, and
generateOrbitalParticles returns exactly the particle list of the same
algorithm with the rejected set and its check removed. -/
theorem generateOrbitalParticles_eq_simple (n l m : ℤ) (count : ℕ)
    (rand : ℕ → ℝ) :
    generateOrbitalParticles n l m count rand =
      generateOrbitalParticlesSimple n l m count rand :=
  genLoop_agrees_simple n l m count rand (count * 10) ⟨[], [], 0, 0⟩
    (by simp) (by simp)

theorem ff_zero (y : ℝ) : ff y 0 = 1 := by simp [ff]

theorem ff_one (y : ℝ) : ff y 1 = y := by simp [ff]

theorem ff_succ (y : ℝ) (m : ℕ) : ff y (m + 1) = ff y m * (y - m) := by
  rw [ff, ff, Finset.prod_range_succ]

theorem ff_shift (y : ℝ) (m : ℕ) : ff (y + 1) (m + 1) = (y + 1) * ff y m := by
  rw [ff, ff, Finset.prod_range_succ']
  have h : ∀ i ∈ Finset.range m, y + 1 - ((i + 1 : ℕ) : ℝ) = y - (i : ℝ) := by
    intro i _; push_cast; ring
  rw [Finset.prod_congr rfl h]
  push_cast
  ring

theorem lagCoeff_shift (α : ℝ) (k m : ℕ) :
    lagCoeff α k (m + 1) = lagCoeff α k m * (α + k + m + 1) / (m + 1) := by
  have hm : ((Nat.factorial m : ℕ) : ℝ) ≠ 0 :=
    Nat.cast_ne_zero.mpr (Nat.factorial_ne_zero m)
  have hk : ((Nat.factorial k : ℕ) : ℝ) ≠ 0 :=
    Nat.cast_ne_zero.mpr (Nat.factorial_ne_zero k)
  have hm1 : ((m : ℝ) + 1) ≠ 0 := by positivity
  rw [lagCoeff, lagCoeff]
  rw [show ((m + 1 : ℕ) : ℝ) = (m : ℝ) + 1 by push_cast; ring]
  rw [show α + (k : ℝ) + ((m : ℝ) + 1) = (α + (k : ℝ) + (m : ℝ)) + 1 by ring]
  rw [ff_shift, Nat.factorial_succ]
  push_cast
  field_simp
  ring

theorem lagCoeff_shift2 (α : ℝ) (k m : ℕ) :
    lagCoeff α k (m + 2) =
      lagCoeff α k m * ((α + k + m + 2) * (α + k + m + 1)) /
        (((m : ℝ) + 2) * ((m : ℝ) + 1)) := by
  have hm1 : ((m : ℝ) + 1) ≠ 0 := by positivity
  have hm2 : ((m : ℝ) + 1 + 1) ≠ 0 := by positivity
  rw [show m + 2 = (m + 1) + 1 from rfl, lagCoeff_shift, lagCoeff_shift]
  push_cast
  field_simp
  ring

theorem lagCoeff_down (α : ℝ) (j m : ℕ) :
    lagCoeff α j (m + 2) =
      -(lagCoeff α (j + 1) m) * (((j : ℝ) + 1) *
        ((α + (j : ℝ) + 1 + (m : ℝ) + 1) * (α + (j : ℝ) + 1))) /
        (((m : ℝ) + 2) * ((m : ℝ) + 1)) := by
  have hm : ((Nat.factorial m : ℕ) : ℝ) ≠ 0 :=
    Nat.cast_ne_zero.mpr (Nat.factorial_ne_zero m)
  have hj : ((Nat.factorial j : ℕ) : ℝ) ≠ 0 :=
    Nat.cast_ne_zero.mpr (Nat.factorial_ne_zero j)
  have hm1 : ((m : ℝ) + 1) ≠ 0 := by positivity
  have hm2 : ((m : ℝ) + 2) ≠ 0 := by positivity
  have hj1 : ((j : ℝ) + 1) ≠ 0 := by positivity
  rw [lagCoeff, lagCoeff]
  rw [show ((m + 2 : ℕ) : ℝ) = (m : ℝ) + 2 by push_cast; ring]
  rw [show α + (j : ℝ) + ((m : ℝ) + 2) =
      (α + ((j + 1 : ℕ) : ℝ) + (m : ℝ)) + 1 by push_cast; ring]
  rw [show m + 2 = (m + 1) + 1 from rfl, ff_shift, ff_succ]
  rw [show Nat.factorial ((m + 1) + 1) = ((m + 1) + 1) * ((m + 1) * Nat.factorial m)
      by rw [Nat.factorial_succ, Nat.factorial_succ]]
  rw [show Nat.factorial (j + 1) = (j + 1) * Nat.factorial j from Nat.factorial_succ j]
  push_cast
  field_simp
  ring

theorem lagCoeff_mid (j m : ℕ) (α : ℝ) :
    ((j : ℝ) + (m : ℝ) + 3) * lagCoeff α (j + 1) (m + 2) -
      (2 * ((j : ℝ) + 1 + (m : ℝ)) + 3 + α) * lagCoeff α (j + 1) (m + 1) +
      ((j : ℝ) + (m : ℝ) + 2 + α) * lagCoeff α (j + 1) m +
      lagCoeff α j (m + 2) = 0 := by
  have hm1 : ((m : ℝ) + 1) ≠ 0 := by positivity
  have hm2 : ((m : ℝ) + 2) ≠ 0 := by positivity
  rw [lagCoeff_shift2, lagCoeff_shift, lagCoeff_down]
  push_cast
  field_simp
  ring

theorem lagCoeff_head (m : ℕ) (α : ℝ) :
    ((m : ℝ) + 2) * lagCoeff α 0 (m + 2) -
      (2 * (m : ℝ) + 3 + α) * lagCoeff α 0 (m + 1) +
      ((m : ℝ) + 1 + α) * lagCoeff α 0 m = 0 := by
  have hm1 : ((m : ℝ) + 1) ≠ 0 := by positivity
  have hm2 : ((m : ℝ) + 2) ≠ 0 := by positivity
  rw [lagCoeff_shift2, lagCoeff_shift]
  push_cast
  field_simp
  ring

theorem lagCoeff_top1 (n : ℕ) (α : ℝ) :
    ((n : ℝ) + 2) * lagCoeff α (n + 1) 1 -
      (2 * (n : ℝ) + 3 + α) * lagCoeff α (n + 1) 0 +
      lagCoeff α n 1 = 0 := by
  have hn : ((Nat.factorial n : ℕ) : ℝ) ≠ 0 :=
    Nat.cast_ne_zero.mpr (Nat.factorial_ne_zero n)
  have hn1 : ((n : ℝ) + 1) ≠ 0 := by positivity
  simp only [lagCoeff, ff_one, ff_zero, Nat.factorial_succ, Nat.factorial_zero,
    Nat.factorial_one]
  push_cast
  field_simp
  ring

theorem lagCoeff_top2 (n : ℕ) (α : ℝ) :
    ((n : ℝ) + 2) * lagCoeff α (n + 2) 0 + lagCoeff α (n + 1) 0 = 0 := by
  have hn : ((Nat.factorial n : ℕ) : ℝ) ≠ 0 :=
    Nat.cast_ne_zero.mpr (Nat.factorial_ne_zero n)
  have hn1 : ((n : ℝ) + 1) ≠ 0 := by positivity
  have hn2 : ((n : ℝ) + 2) ≠ 0 := by positivity
  simp only [lagCoeff, ff_zero, Nat.factorial_succ, Nat.factorial_zero]
  push_cast
  field_simp
  ring

theorem lagSum_eq_sum_lagTerm (α x : ℝ) (v N : ℕ) (h : v < N) :
    lagSum α x v = ∑ k in Finset.range N, lagTerm α x v k := by
  rw [lagSum]
  have h1 : ∑ k in Finset.range (v + 1), lagCoeff α k (v - k) * x ^ k =
      ∑ k in Finset.range (v + 1), lagTerm α x v k :=
    Finset.sum_congr rfl (fun k hk => by
      rw [lagTerm, if_pos (Nat.lt_succ_iff.mp (Finset.mem_range.mp hk))])
  rw [h1]
  exact Finset.sum_subset (Finset.range_subset.mpr h) (fun k _ hk => by
    rw [lagTerm, if_neg]
    intro hc
    exact hk (Finset.mem_range.mpr (Nat.lt_succ_of_le hc)))

theorem mul_lagSum_shift (α x : ℝ) (n : ℕ) :
    x * lagSum α x (n + 1) =
      ∑ k in Finset.range (n + 3),
        (if k = 0 then 0 else x * lagTerm α x (n + 1) (k - 1)) := by
  rw [lagSum_eq_sum_lagTerm α x (n + 1) (n + 2) (by omega), Finset.mul_sum]
  rw [Finset.sum_range_succ' _ (n + 2)]
  simp

theorem lagSum_rec (n : ℕ) (α x : ℝ) :
    ((n : ℝ) + 2) * lagSum α x (n + 2) =
      (2 * ((n : ℝ) + 1) + 1 + α - x) * lagSum α x (n + 1) -
        (((n : ℝ) + 1) + α) * lagSum α x n := by
  have h2 := lagSum_eq_sum_lagTerm α x (n + 2) (n + 3) (by omega)
  have h1 := lagSum_eq_sum_lagTerm α x (n + 1) (n + 3) (by omega)
  have h0 := lagSum_eq_sum_lagTerm α x n (n + 3) (by omega)
  have hx := mul_lagSum_shift α x n
  have key : ∑ k in Finset.range (n + 3),
      (((n : ℝ) + 2) * lagTerm α x (n + 2) k -
        (2 * (n : ℝ) + 3 + α) * lagTerm α x (n + 1) k +
        (((n : ℝ) + 1) + α) * lagTerm α x n k +
        (if k = 0 then 0 else x * lagTerm α x (n + 1) (k - 1))) = 0 := by
    apply Finset.sum_eq_zero
    intro k hk
    have hk3 : k < n + 3 := Finset.mem_range.mp hk
    rcases k with _ | j
    · have hzero : (if (0 : ℕ) = 0 then (0 : ℝ)
          else x * lagTerm α x (n + 1) (0 - 1)) = 0 := if_pos rfl
      rw [hzero, lagTerm, lagTerm, lagTerm, if_pos (Nat.zero_le (n + 2)),
        if_pos (Nat.zero_le (n + 1)), if_pos (Nat.zero_le n)]
      simp only [Nat.sub_zero, pow_zero, mul_one, add_zero]
      linear_combination lagCoeff_head n α
    · rcases Nat.lt_or_ge j n with hj | hj
      · obtain ⟨m, rfl⟩ : ∃ m, n = j + 1 + m := ⟨n - (j + 1), by omega⟩
        simp only [lagTerm, if_pos (show j + 1 ≤ j + 1 + m + 2 by omega),
          if_pos (show j + 1 ≤ j + 1 + m + 1 by omega),
          if_pos (show j + 1 ≤ j + 1 + m by omega),
          if_neg (Nat.succ_ne_zero j), Nat.succ_sub_one,
          if_pos (show j ≤ j + 1 + m + 1 by omega)]
        rw [show j + 1 + m + 2 - (j + 1) = m + 2 by omega,
          show j + 1 + m + 1 - (j + 1) = m + 1 by omega,
          show j + 1 + m - (j + 1) = m by omega,
          show j + 1 + m + 1 - j = m + 2 by omega]
        push_cast
        linear_combination (x ^ (j + 1)) * lagCoeff_mid j m α
      · have hor : j = n ∨ j = n + 1 := by omega
        rcases hor with hj2 | hj2
        · subst hj2
          simp only [lagTerm, if_pos (show j + 1 ≤ j + 2 by omega),
            if_pos (show j + 1 ≤ j + 1 by omega),
            if_neg (show ¬(j + 1 ≤ j) by omega),
            if_neg (Nat.succ_ne_zero j), Nat.succ_sub_one,
            if_pos (show j ≤ j + 1 by omega)]
          rw [show j + 2 - (j + 1) = 1 by omega,
            show j + 1 - (j + 1) = 0 by omega,
            show j + 1 - j = 1 by omega]
          push_cast
          linear_combination (x ^ (j + 1)) * lagCoeff_top1 j α
        · subst hj2
          simp only [lagTerm, if_pos (show n + 2 ≤ n + 2 by omega),
            if_neg (show ¬(n + 2 ≤ n + 1) by omega),
            if_neg (show ¬(n + 2 ≤ n) by omega),
            if_neg (Nat.succ_ne_zero (n + 1)), Nat.succ_sub_one,
            if_pos (show n + 1 ≤ n + 1 by omega)]
          rw [show n + 2 - (n + 2) = 0 by omega,
            show n + 1 - (n + 1) = 0 by omega]
          push_cast
          linear_combination (x ^ (n + 2)) * lagCoeff_top2 n α
  rw [Finset.sum_add_distrib, Finset.sum_add_distrib, Finset.sum_sub_distrib,
    ← Finset.mul_sum, ← Finset.mul_sum, ← Finset.mul_sum, ← h2, ← h1, ← h0,
    ← hx] at key
  linear_combination key

theorem lagRec_eq_lagStd (α x : ℝ) :
    ∀ k, lagRec α x k = (lagStd α x k, lagStd α x (k + 1)) := by
  intro k
  induction k with
  | zero => rfl
  | succ k ih =>
    simp only [lagRec, ih]
    rfl

theorem associatedLaguerre_natCast (n : ℕ) (α x : ℝ) :
    associatedLaguerre (n : ℤ) α x = lagStd α x n := by
  match n with
  | 0 => norm_num [associatedLaguerre, lagStd]
  | 1 => norm_num [associatedLaguerre, lagStd]
  | (k + 2) =>
    rw [associatedLaguerre,
      if_neg (show ¬((k + 2 : ℕ) : ℤ) = 0 by push_cast; omega),
      if_neg (show ¬((k + 2 : ℕ) : ℤ) = 1 by push_cast; omega),
      show (((k + 2 : ℕ) : ℤ) - 1).toNat = k + 1 by omega,
      lagRec_eq_lagStd]

theorem laguerreBinomialSum_eq_lagSum (n : ℕ) (α x : ℝ) :
    laguerreBinomialSum n α x = lagSum α x n := by
  rw [laguerreBinomialSum, lagSum]
  refine Finset.sum_congr rfl (fun k hk => ?_)
  have hk' : k ≤ n := Nat.lt_succ_iff.mp (Finset.mem_range.mp hk)
  rw [genBinom, lagCoeff,
    show α + (k : ℝ) + ((n - k : ℕ) : ℝ) = α + (n : ℝ) by
      rw [Nat.cast_sub hk']; ring]
  ring

theorem lagStd_eq_lagSum (α x : ℝ) : ∀ n, lagStd α x n = lagSum α x n := by
  intro n
  induction n using Nat.strong_induction_on with
  | _ n ih =>
    match n, ih with
    | 0, _ =>
      rw [show lagStd α x 0 = 1 from rfl, lagSum]
      simp [lagCoeff, ff]
    | 1, _ =>
      rw [show lagStd α x 1 = 1 + α - x from rfl, lagSum,
        Finset.sum_range_succ, Finset.sum_range_one]
      simp only [lagCoeff, ff_zero, ff_one, Nat.sub_zero, Nat.sub_self]
      norm_num [Nat.factorial]
      ring
    | (k + 2), ih =>
      have hrec : lagStd α x (k + 2) =
          ((2 * ((k : ℝ) + 1) + 1 + α - x) * lagStd α x (k + 1) -
            (((k : ℝ) + 1) + α) * lagStd α x k) / (((k : ℝ) + 1) + 1) := rfl
      rw [hrec, ih (k + 1) (by omega), ih k (by omega)]
      have hne : (((k : ℝ) + 1) + 1) ≠ 0 := by positivity
      rw [div_eq_iff hne]
      linear_combination -lagSum_rec k α x

/-- Claim C7: for every integer n >= 0 and all real alpha, x, the
three-term-recurrence implementation associatedLaguerre agrees exactly,
in real arithmetic, with the direct binomial-sum reference definition of
the associated Laguerre polynomial. -/
theorem associatedLaguerre_eq_binomialSum (n : ℕ) (α x : ℝ) :
    associatedLaguerre (n : ℤ) α x = laguerreBinomialSum n α x := by
  rw [associatedLaguerre_natCast, laguerreBinomialSum_eq_lagSum,
    lagStd_eq_lagSum]
